import Mathlib

/-!
Verification of the cad-bot-demo retrieval-and-synthesis pipeline.

The development shallowly embeds the core logic of the repository:

* `app.py` — glossary query expansion (`expand_query`), multi-query
  retrieval with distance thresholding, dedup and ranking (`retrieve`),
  and the submit handler around the generative synthesizer;
* `app_noapi.py` — the extractive synthesizer (`_sentences`, `_keywords`,
  `_score_sentence`, and the extractive answer block) and its
  single-query retrieval path;
* `ingest.py` — chunk id assignment with collision disambiguation.

Distances and scores (Python floats) are embedded as rationals; machine
strings are embedded as Lean `String` / `List Char`.  External
collaborators (the embedding provider and the vector index) are modelled
as function parameters, so theorems quantify over every possible
collaborator behaviour.
-/

namespace CadBot

/-! ## Character classes and small string utilities -/

/-- Whitespace characters, matching Python `\s` and `str.strip` on the
ASCII range (the texts handled by the pipeline). -/
def isWs (c : Char) : Bool :=
  c == ' ' || c == '\t' || c == '\n' || c == '\r' || c == '\x0b' || c == '\x0c'

/-- Sentence-terminal punctuation of the `_sentences` regex: `[.?!]`. -/
def isTerm (c : Char) : Bool :=
  c == '.' || c == '?' || c == '!'

/-- Token characters of the `[a-z0-9\-]+` regex in `_keywords` and
`_score_sentence`. -/
def isTokChar (c : Char) : Bool :=
  (decide ('a' ≤ c) && decide (c ≤ 'z')) ||
  (decide ('0' ≤ c) && decide (c ≤ '9')) || c == '-'

/-- Python `str.lower` restricted to ASCII case mapping. -/
def pyLower (s : String) : String :=
  ⟨s.data.map Char.toLower⟩

/-- Python `str.strip` on a character list: drop whitespace from both
ends. -/
def stripChars (l : List Char) : List Char :=
  ((l.dropWhile isWs).reverse.dropWhile isWs).reverse

/-- Python substring test `pat in hay`. -/
def pyContains (hay pat : String) : Bool :=
  hay.data.tails.any (fun t => pat.data.isPrefixOf t)

/-- One left-to-right pass of Python `str.replace` for a non-empty
pattern; `fuel` bounds the recursion (each step consumes at least one
character, so `fuel = length of the text` suffices). -/
def replaceFuel (pat rep : List Char) : ℕ → List Char → List Char
  | _, [] => []
  | 0, s => s
  | fuel + 1, c :: cs =>
    if pat ≠ [] && pat.isPrefixOf (c :: cs) then
      rep ++ replaceFuel pat rep fuel ((c :: cs).drop pat.length)
    else
      c :: replaceFuel pat rep fuel cs

/-- Python `hay.replace(pat, rep)`: replace all non-overlapping
occurrences left to right; with an empty pattern, Python interleaves the
replacement around every character. -/
def pyreplace (hay pat rep : String) : String :=
  if pat.data = [] then
    ⟨rep.data ++ hay.data.flatMap (fun c => c :: rep.data)⟩
  else
    ⟨replaceFuel pat.data rep.data hay.data.length hay.data⟩

/-- Order-preserving first-occurrence deduplication with an explicit
seen accumulator: the semantics of Python `dict.fromkeys`. -/
def pydedupAux {α : Type} [DecidableEq α] (seen : List α) : List α → List α
  | [] => []
  | x :: xs =>
    if x ∈ seen then pydedupAux seen xs else x :: pydedupAux (x :: seen) xs

/-- Python `list(dict.fromkeys(l))`: keep the first occurrence of each
element, preserving order. -/
def pydedup {α : Type} [DecidableEq α] (l : List α) : List α :=
  pydedupAux [] l

/-- Python `int(s)` on a page marker: optional whitespace and sign, then
a non-empty digit run; `none` models a raised `ValueError`. -/
def digitsToNat (acc : ℕ) : List Char → Option ℕ
  | [] => some acc
  | c :: cs => if c.isDigit then digitsToNat (acc * 10 + (c.toNat - 48)) cs else none

/-- Python `int(s)` (returning `none` where Python raises). -/
def pyInt (s : String) : Option ℤ :=
  match stripChars s.data with
  | [] => none
  | c :: cs =>
    if c = '-' then
      match cs with
      | [] => none
      | _ => (digitsToNat 0 cs).map (fun n => -(n : ℤ))
    else if c = '+' then
      match cs with
      | [] => none
      | _ => (digitsToNat 0 cs).map (fun n => (n : ℤ))
    else (digitsToNat 0 (c :: cs)).map (fun n => (n : ℤ))

/-! ## A stable sort

Python `sorted` / `list.sort` is a stable sort.  We model it as an
insertion sort that inserts each element after every already-placed
element that compares `le` to it: processing the list left to right with
`List.foldl` then reproduces exactly the stable order. -/

/-- Insert `x` after every element `y` of the (already sorted) list with
`le y x = true`. -/
def insBefore {α : Type} (le : α → α → Bool) (x : α) : List α → List α
  | [] => [x]
  | y :: ys => if le y x then y :: insBefore le x ys else x :: y :: ys

/-- Stable sort by the comparison `le` (Python `sorted`). -/
def stableSort {α : Type} (le : α → α → Bool) (l : List α) : List α :=
  l.foldl (fun acc x => insBefore le x acc) []

/-! ## app.py — query expansion and multi-query retrieval -/

/-- The glossary rewrites appended by the loop of `expand_query`: for
each canonical term and each of its spellings (the canonical one first),
if the spelling occurs in the lowercased question, the lowercased
question with that spelling replaced by the canonical term. -/
def expandTail (gloss : List (String × List String)) (q : String) : List String :=
  gloss.flatMap (fun cv =>
    (cv.1 :: cv.2).filterMap (fun term =>
      if pyContains (pyLower q) term then some (pyreplace (pyLower q) term cv.1)
      else none))

/-- The collected list `expanded` of `expand_query`: the original
question followed by one glossary rewrite per matching spelling, in
glossary iteration order. -/
def expandRaw (gloss : List (String × List String)) (q : String) : List String :=
  q :: expandTail gloss q

/-- `expand_query` of app.py: collect the original question plus the
glossary rewrites, dedup keeping first occurrences, cap at 4. -/
def expand_query (gloss : List (String × List String)) (q : String) : List String :=
  (pydedup (expandRaw gloss q)).take 4

/-- A retrieval candidate as stored in the `seen` dict of `retrieve`. -/
structure Cand where
  text : String
  page : Option String
  distance : ℚ
deriving DecidableEq

/-- The first 80 characters of a text: Python `t[:80]`. -/
def take80 (t : String) : String :=
  ⟨t.data.take 80⟩

/-- Dedup key `(m.get("page"), t[:80])`. -/
abbrev DKey := Option String × String

/-- Dedup key of a stored candidate. -/
def dkeyCand (c : Cand) : DKey :=
  (c.page, take80 c.text)

/-- The result of one nearest-neighbor search: parallel lists of
documents, page metadata and cosine distances, exactly as the vector
index returns them. -/
abbrev SearchRes := List String × List (Option String) × List ℚ

/-- Align the three parallel result lists, as Python
`zip(docs, metas, dists)` does (truncating to the shortest). -/
def zipRes (r : SearchRes) : List (String × Option String × ℚ) :=
  r.1.zip (r.2.1.zip r.2.2)

/-- Dedup key of a returned neighbor. -/
def dkeyOf (e : String × Option String × ℚ) : DKey :=
  (e.2.1, take80 e.1)

/-- The candidate a returned neighbor is stored as. -/
def candOf (e : String × Option String × ℚ) : Cand :=
  ⟨e.1, e.2.1, e.2.2⟩

/-- First-match lookup in the insertion-ordered association list that
models the Python dict `seen`. -/
def lookupK (k : DKey) : List (DKey × Cand) → Option Cand
  | [] => none
  | (k', c) :: rest => if k' = k then some c else lookupK k rest

/-- The dict update of `retrieve`: `if key not in seen or d <
seen[key]["distance"]: seen[key] = cand`.  A fresh key is appended at
the end (dict insertion order); an existing key keeps its position and
is overwritten only on strictly smaller distance. -/
def updSeen (k : DKey) (c : Cand) : List (DKey × Cand) → List (DKey × Cand)
  | [] => [(k, c)]
  | (k', c') :: rest =>
    if k' = k then
      if c.distance < c'.distance then (k', c) :: rest else (k', c') :: rest
    else (k', c') :: updSeen k c rest

/-- Processing of one returned neighbor in `retrieve`: keep it only when
its distance is at most the threshold `T`, then merge it into `seen`
under its dedup key. -/
def stepNeighbor (T : ℚ) (seen : List (DKey × Cand)) (e : String × Option String × ℚ) :
    List (DKey × Cand) :=
  if e.2.2 ≤ T then updSeen (dkeyOf e) (candOf e) seen else seen

/-- The `seen` dict after the two nested loops of `retrieve`: for each
expanded query, run the nearest-neighbor search (the external collection
is the function `search`) and fold every returned neighbor through the
threshold-and-merge step. -/
def retrieveSeen (search : String → SearchRes) (T : ℚ) (qs : List String) :
    List (DKey × Cand) :=
  qs.foldl (fun seen q => (zipRes (search q)).foldl (stepNeighbor T) seen) []

/-- The values of the `seen` dict in insertion order
(`seen.values()`). -/
def retrievePre (search : String → SearchRes) (T : ℚ) (qs : List String) : List Cand :=
  (retrieveSeen search T qs).map Prod.snd

/-- Comparison used by the final `sorted(..., key=lambda x: x["distance"])`. -/
def candLe (a b : Cand) : Bool :=
  decide (a.distance ≤ b.distance)

/-- `retrieve` of app.py: merged candidates sorted ascending by
distance with Python's stable sort. -/
def retrieve (search : String → SearchRes) (T : ℚ) (qs : List String) : List Cand :=
  stableSort candLe (retrievePre search T qs)

/-- Every neighbor returned across all expanded queries, in processing
order (the flattening of the two nested loops of `retrieve`). -/
def streamAll (search : String → SearchRes) (qs : List String) :
    List (String × Option String × ℚ) :=
  qs.flatMap (fun q => zipRes (search q))

/-- Proof-side view of one merge step restricted to a single dedup key
`k`: the running best (lowest-distance) candidate for that key. -/
def bestStep (T : ℚ) (k : DKey) (a : Option Cand) (e : String × Option String × ℚ) :
    Option Cand :=
  if e.2.2 ≤ T ∧ dkeyOf e = k then
    match a with
    | none => some (candOf e)
    | some c => if e.2.2 < c.distance then some (candOf e) else some c
  else a

/-- Proof-side view of the merge on key `k` over a neighbor stream. -/
def bestFor (T : ℚ) (k : DKey) (es : List (String × Option String × ℚ))
    (a : Option Cand) : Option Cand :=
  es.foldl (bestStep T k) a

/-! ## app.py — submit handler around the generative synthesizer -/

/-- The fixed refusal / not-found sentence of app.py. -/
def notFoundMsg : String :=
  "Not found in the CAD Standards manual."

/-- What the submit handler renders. -/
inductive AppDisplay where
  | warnNotFound : AppDisplay
  | answered : String → List Cand → AppDisplay
deriving DecidableEq

/-- Result of one submit: the rendered display together with how many
times the generative collaborator was invoked. -/
structure SubmitOut where
  display : AppDisplay
  llmCalls : ℕ
deriving DecidableEq

/-- The submit handler of app.py, given the ranked hits produced by
`retrieve`: with no hits it warns with the fixed message and never calls
the generative collaborator `llm`; otherwise it asks the collaborator
over the top 6 hits and classifies the reply by searching it for the
refusal sentence. -/
def submitHandler (q : String) (llm : String → List Cand → String) (hits : List Cand) :
    SubmitOut :=
  if hits.isEmpty then
    ⟨.warnNotFound, 0⟩
  else
    let answer := llm q (hits.take 6)
    if pyContains answer notFoundMsg then ⟨.warnNotFound, 1⟩
    else ⟨.answered answer (hits.take 4), 1⟩

/-! ## app_noapi.py — sentence segmentation -/

/-- Is the head of the reversed piece accumulator sentence-terminal
punctuation?  This is the lookbehind `(?<=[.?!])` of the `_sentences`
regex: the character immediately before the whitespace run. -/
def headIsTerm : List Char → Bool
  | [] => false
  | p :: _ => isTerm p

/-- One pass of `re.split(r'(?<=[.?!])\s+', text)`.  `acc` is the
current piece, reversed; in skip mode (`skip = true`) the maximal
whitespace run of a separator is being consumed. -/
def splitAux : Bool → List Char → List Char → List (List Char)
  | _, acc, [] => [acc.reverse]
  | true, acc, c :: cs =>
    if isWs c then splitAux true acc cs else splitAux false (c :: acc) cs
  | false, acc, c :: cs =>
    if isWs c && headIsTerm acc then acc.reverse :: splitAux true [] cs
    else splitAux false (c :: acc) cs

/-- Split into sentence pieces at whitespace runs preceded by
sentence-terminal punctuation. -/
def splitSents (l : List Char) : List (List Char) :=
  splitAux false [] l

/-- The argument `_sentences` feeds to the split:
`text.replace('\n', ' ').strip()`. -/
def preChars (text : String) : List Char :=
  stripChars (text.data.map (fun c => if c = '\n' then ' ' else c))

/-- Length filter of `_sentences`: `6 <= len(s) <= 300`. -/
def lenOK (p : List Char) : Bool :=
  decide (6 ≤ p.length) && decide (p.length ≤ 300)

/-- `_sentences` of app_noapi.py: split the normalized text, keep the
pieces of length 6 to 300, and strip each kept piece. -/
def pySentences (text : String) : List String :=
  ((splitSents (preChars text)).filter lenOK).map (fun p => (⟨stripChars p⟩ : String))

/-- The sentence segmentation in the words of the specification: split
on sentence-terminal punctuation followed by whitespace and keep exactly
the sentences whose trimmed length lies in [6, 300]. -/
def specSentences (text : String) : List String :=
  (((splitSents (preChars text)).map stripChars).filter lenOK).map
    (fun p => (⟨p⟩ : String))

/-! ## app_noapi.py — keywords and extractive scoring -/

/-- The fixed stop-word set `_STOP`. -/
def pySTOP : List String :=
  ["the", "a", "an", "and", "or", "of", "to", "in", "on", "for", "by", "is",
   "are", "as", "at", "with", "from", "that", "this", "these", "those", "it", "its"]

/-- `re.findall(r"[a-z0-9\-]+", s.lower())`: maximal token-character
runs of the lowercased string. -/
def findRunsAux (p : Char → Bool) (cur : List Char) : List Char → List (List Char)
  | [] => if cur = [] then [] else [cur.reverse]
  | c :: cs =>
    if p c then findRunsAux p (c :: cur) cs
    else if cur = [] then findRunsAux p [] cs
    else cur.reverse :: findRunsAux p [] cs

/-- Tokenization shared by `_keywords` and `_score_sentence`. -/
def tokenize (s : String) : List String :=
  (findRunsAux isTokChar [] (s.data.map Char.toLower)).map (fun cs => (⟨cs⟩ : String))

/-- `_keywords` of app_noapi.py: tokens of the question that are not
stop words and are longer than 2 characters. -/
def pykeywords (q : String) : List String :=
  (tokenize q).filter (fun t => !(pySTOP.contains t) && decide (2 < t.length))

/-- `_score_sentence` of app_noapi.py: keyword frequency over the
sentence tokens, discounted by `1 + len(toks)/40`. -/
def score_sentence (sent : String) (keys : List String) : ℚ :=
  if sent = "" then 0
  else
    let toks := tokenize sent
    ((keys.map (fun k => ((toks.count k : ℕ) : ℚ))).sum) / (1 + (toks.length : ℚ) / 40)

/-- The scoring formula in the words of the specification: sum over
keywords of that keyword's frequency among the sentence tokens, divided
by `1 + token_count/40`. -/
def scoreFormula (sent : String) (keys : List String) : ℚ :=
  ((keys.map (fun k => (((tokenize sent).count k : ℕ) : ℚ))).sum) /
    (1 + ((tokenize sent).length : ℚ) / 40)

/-! ## app_noapi.py — the extractive answer block -/

/-- A scored sentence `(score, sentence, page)` as in the `candidates`
list of the query handler. -/
abbrev Scored := ℚ × String × String

/-- Comparison of `candidates.sort(reverse=True, key=lambda x: x[0])`:
in the stable insertion order, an already-placed sentence stays before a
newly inserted one exactly when its score is at least as large. -/
def scoredGe (a b : Scored) : Bool :=
  decide (b.1 ≤ a.1)

/-- Comparison for `sorted` on integers. -/
def intLe (a b : ℤ) : Bool :=
  decide (a ≤ b)

/-- Python `sorted(set(l))` for integer pages: the strictly increasing
enumeration of the distinct elements. -/
def sortedUnique (l : List ℤ) : List ℤ :=
  stableSort intLe (pydedup l)

/-- `zip(docs, metas, dists)` of the query handler. -/
def rowsOf (docs : List String) (metas : List (Option String)) (dists : List ℚ) :
    List (String × Option String × ℚ) :=
  docs.zip (metas.zip dists)

/-- Output of the extractive answer block (lines 166-200 of
app_noapi.py): the selected scored sentences, the rendered concise
answer, the cited pages, whether the fallback message was shown, and the
supporting snippets. -/
structure ExtractOut where
  selected : List Scored
  topSents : List String
  cited : List ℤ
  fallback : Bool
  snippets : List (String × Option String × ℚ)
deriving DecidableEq

/-- The scored-sentence pool of one retrieved row: every kept sentence
of the passage whose keyword score is strictly positive, tagged with the
page marker (`meta.get("page", "?")`). -/
def scoredRow (keys : List String) (txt : String) (meta : Option String) : List Scored :=
  (pySentences txt).filterMap (fun s =>
    if 0 < score_sentence s keys then
      some ((score_sentence s keys, s, meta.getD "?") : Scored)
    else none)

/-- The full `candidates` list of the extractive block, gathered across
all retrieved rows. -/
def scoredCands (query : String) (docs : List String) (metas : List (Option String))
    (dists : List ℚ) : List Scored :=
  (rowsOf docs metas dists).flatMap (fun r => scoredRow (pykeywords query) r.1 r.2.1)

/-- The extractive answer block: score every kept sentence of every
retrieved passage against the question keywords, keep the strictly
positive ones, sort descending by score (stable), select the top 3,
cite the distinct integer-parsable pages of the selection sorted
ascending, and always expose the raw passages as supporting snippets. -/
def extractBlock (query : String) (docs : List String) (metas : List (Option String))
    (dists : List ℚ) : ExtractOut :=
  let candidates := scoredCands query docs metas dists
  let sortedC := stableSort scoredGe candidates
  let sel := sortedC.take 3
  let cited := sortedUnique (sel.filterMap (fun t =>
    if t.2.2 ≠ "?" then pyInt t.2.2 else none))
  { selected := sel
    topSents := sel.map (fun t => t.2.1)
    cited := cited
    fallback := sel.isEmpty
    snippets := rowsOf docs metas dists }

/-- Result of one question on the no-API path: the searches issued
against the vector index (query text and requested result width), and
the rendered answer block when any document came back. -/
structure NoapiOut where
  issued : List (String × ℕ)
  found : Bool
  block : Option ExtractOut
deriving DecidableEq

/-- The query handler of app_noapi.py: embed the question, issue a
single nearest-neighbor search with `n_results = TOP_K = 5`, and render
either the no-result message or the extractive answer block over every
returned neighbor. -/
def noapiHandler (search : String → ℕ → SearchRes) (query : String) : NoapiOut :=
  let res := search query 5
  if res.1.isEmpty then
    ⟨[(query, 5)], false, none⟩
  else
    ⟨[(query, 5)], true, some (extractBlock query res.1 res.2.1 res.2.2)⟩

/-! ## ingest.py — chunk id assignment -/

/-- Digit character of a decimal digit. -/
def digitChar : ℕ → Char
  | 0 => '0' | 1 => '1' | 2 => '2' | 3 => '3' | 4 => '4'
  | 5 => '5' | 6 => '6' | 7 => '7' | 8 => '8' | _ => '9'

/-- Decimal representation of a natural number, as the f-strings of
ingest.py render page and position numbers. -/
def natStr (n : ℕ) : List Char :=
  if h : n < 10 then [digitChar n]
  else natStr (n / 10) ++ [digitChar (n % 10)]
decreasing_by exact Nat.div_lt_self (lt_of_lt_of_le (by norm_num) (Nat.not_lt.mp h)) (by norm_num)

/-- The disambiguated id `f"{cid}-{k}"`. -/
def candSuffix (cid : List Char) (k : ℕ) : List Char :=
  cid ++ '-' :: natStr k

/-- The `while f"{cid}-{k}" in seen: k += 1` loop of ingest.py, searching
suffixes `-1`, `-2`, ... for one not yet taken; `fuel` bounds the search
(`len(seen) + 1` candidate suffixes cannot all be taken). -/
def findFreeAux (seen : List (List Char)) (cid : List Char) : ℕ → ℕ → List Char
  | 0, k => candSuffix cid k
  | fuel + 1, k =>
    if candSuffix cid k ∈ seen then findFreeAux seen cid fuel (k + 1)
    else candSuffix cid k

/-- Collision guard of ingest.py: keep the base id unless it is already
taken, else append the first free numeric suffix. -/
def freshId (seen : List (List Char)) (cid : List Char) : List Char :=
  if cid ∈ seen then findFreeAux seen cid (seen.length + 1) 1 else cid

/-- The base id `f"{page}-{i}-{base}"` where `base` is the (truncated)
content hash `h page text` — the hash function is an embedding parameter
so the uniqueness theorem holds for every possible hash. -/
def mkBaseId (h : ℕ → List Char → List Char) (page i : ℕ) (text : List Char) :
    List Char :=
  natStr page ++ '-' :: natStr i ++ '-' :: h page text

/-- The id-assignment loop of `main` in ingest.py over the enumerated
chunks `(page, content)`.  The growing `ids` list doubles as the `seen`
set (the code appends to both in lockstep, so they always hold the same
ids). -/
def buildIds (h : ℕ → List Char → List Char) (chunks : List (ℕ × List Char)) :
    List (List Char) :=
  chunks.enum.foldl (fun ids ich =>
    ids ++ [freshId ids (mkBaseId h ich.2.1 ich.1 ich.2.2)]) []

/-! ## Claim properties -/

/-- Property of claim C1: the candidate set produced by `retrieve` has
pairwise distinct dedup keys, every kept entry is one of the thresholded
neighbors, and no thresholded neighbor with the same dedup key has a
strictly smaller distance than the kept entry. -/
def RetrieveDedupOK (search : String → SearchRes) (T : ℚ) (qs : List String) : Prop :=
  ((retrieve search T qs).map dkeyCand).Nodup ∧
  ∀ c ∈ retrieve search T qs,
    (∃ e ∈ streamAll search qs, e.2.2 ≤ T ∧ candOf e = c) ∧
    ∀ e ∈ streamAll search qs, e.2.2 ≤ T → dkeyOf e = dkeyCand c → c.distance ≤ e.2.2

/-- Property of claim C2 (threshold behaviour): no merged candidate
exceeds the threshold, and every returned neighbor within the threshold
is represented in the merged output under its dedup key. -/
def RetrieveThresholdOK (search : String → SearchRes) (T : ℚ) (qs : List String) : Prop :=
  (∀ c ∈ retrieve search T qs, c.distance ≤ T) ∧
  (∀ e ∈ streamAll search qs, e.2.2 ≤ T →
    ∃ c ∈ retrieve search T qs, dkeyCand c = dkeyOf e)

/-- Property of claim C3: the output of `retrieve` is non-decreasing in
distance, and within each distance class it preserves the first-inserted
order of the candidate set (stability). -/
def RetrieveSortedOK (search : String → SearchRes) (T : ℚ) (qs : List String) : Prop :=
  (retrieve search T qs).Pairwise (fun a b => a.distance ≤ b.distance) ∧
  ∀ d : ℚ, (retrieve search T qs).filter (fun c => decide (c.distance = d)) =
    (retrievePre search T qs).filter (fun c => decide (c.distance = d))

/-- Property of claim C4: `expand_query` yields 1 to 4 strings, the
first being the unmodified question, without duplicates, as an
order-preserving selection from the collected rewrites; an empty
glossary yields exactly the singleton question. -/
def ExpandOK (gloss : List (String × List String)) (q : String) : Prop :=
  (expand_query gloss q).head? = some q ∧
  1 ≤ (expand_query gloss q).length ∧
  (expand_query gloss q).length ≤ 4 ∧
  (expand_query gloss q).Nodup ∧
  (expand_query gloss q).Sublist (expandRaw gloss q) ∧
  (gloss = [] → expand_query gloss q = [q])

/-- Total keyword frequency of `keys` among the tokens of `sent`, as a
rational (the numerator of the extractive score). -/
def keywordHitsQ (keys : List String) (sent : String) : ℚ :=
  ((keys.map (fun k => (((tokenize sent).count k : ℕ) : ℚ))).sum)

/-- Property of claim C5 (consequence part): among two sentences with
equally many tokens, one with keyword hits outscores one with none. -/
def ScoreKeywordMono : Prop :=
  ∀ s₁ s₂ : String, ∀ keys : List String,
    (tokenize s₁).length = (tokenize s₂).length →
    0 < keywordHitsQ keys s₁ →
    keywordHitsQ keys s₂ = 0 →
    score_sentence s₂ keys < score_sentence s₁ keys

/-- Property of claim C6: the extractive block selects at most 3
strictly positive scored sentences in descending score order, selects
only top-scoring candidates, shows exactly the selected sentences,
cites exactly the distinct integer-parsable pages of the selection in
strictly increasing order, reports the fallback when nothing scores
positively, and always exposes the raw passages. -/
def ExtractOK (query : String) (docs : List String) (metas : List (Option String))
    (dists : List ℚ) : Prop :=
  (extractBlock query docs metas dists).selected.length ≤ 3 ∧
  (∀ t ∈ (extractBlock query docs metas dists).selected,
    0 < t.1 ∧ t ∈ scoredCands query docs metas dists) ∧
  (extractBlock query docs metas dists).selected.Pairwise (fun a b => b.1 ≤ a.1) ∧
  (∀ u ∈ scoredCands query docs metas dists,
    u ∉ (extractBlock query docs metas dists).selected →
    ∀ t ∈ (extractBlock query docs metas dists).selected, u.1 ≤ t.1) ∧
  (extractBlock query docs metas dists).topSents =
    (extractBlock query docs metas dists).selected.map (fun t => t.2.1) ∧
  (extractBlock query docs metas dists).cited.Pairwise (fun a b => a < b) ∧
  (∀ z : ℤ, z ∈ (extractBlock query docs metas dists).cited ↔
    ∃ t ∈ (extractBlock query docs metas dists).selected, pyInt t.2.2 = some z) ∧
  ((∀ r ∈ rowsOf docs metas dists, ∀ s ∈ pySentences r.1,
      score_sentence s (pykeywords query) ≤ 0) →
    (extractBlock query docs metas dists).fallback = true ∧
    (extractBlock query docs metas dists).selected = []) ∧
  (extractBlock query docs metas dists).snippets = rowsOf docs metas dists

/-- Property of claim C10 (handler part): exactly one nearest-neighbor
search is issued, with the unexpanded question and result width 5, and
whenever any document comes back the extractive block runs over every
returned neighbor, exposing all of them as passages. -/
def NoapiOK (search : String → ℕ → SearchRes) (query : String) : Prop :=
  (noapiHandler search query).issued = [(query, 5)] ∧
  ((search query 5).1 ≠ [] →
    (noapiHandler search query).found = true ∧
    (noapiHandler search query).block =
      some (extractBlock query (search query 5).1 (search query 5).2.1
        (search query 5).2.2)) ∧
  (∀ B, (noapiHandler search query).block = some B →
    B.snippets = rowsOf (search query 5).1 (search query 5).2.1 (search query 5).2.2)

/-- Property of claim C10 (no-threshold part): the extractive answer is
independent of the returned distances — only their count (which bounds
the zip) matters, never their values, so no distance threshold is
applied anywhere on this path. -/
def ExtractDistFree (query : String) (docs : List String)
    (metas : List (Option String)) : Prop :=
  ∀ d₁ d₂ : List ℚ, d₁.length = d₂.length →
    (extractBlock query docs metas d₁).selected = (extractBlock query docs metas d₂).selected ∧
    (extractBlock query docs metas d₁).topSents = (extractBlock query docs metas d₂).topSents ∧
    (extractBlock query docs metas d₁).cited = (extractBlock query docs metas d₂).cited ∧
    (extractBlock query docs metas d₁).fallback = (extractBlock query docs metas d₂).fallback

/-! ## Concrete example inputs used in the claims -/

/-- A collection that answers every query with a single neighbor at
cosine distance 0.50 (page 12). -/
def distHalfSearch : String → SearchRes :=
  fun _ => (["sample passage"], [some "12"], [(1 : ℚ) / 2])

/-- A collection that answers every query with two neighbors sharing
the dedup key (same page, same text) at distances 0.30 and 0.20. -/
def twoHitSearch : String → SearchRes :=
  fun _ => (["alpha passage", "alpha passage"], [some "3", some "3"],
    [(3 : ℚ) / 10, (2 : ℚ) / 10])

/-- The keyword set of the specification example. -/
def kwSheetNaming : List String :=
  pykeywords "sheet naming"

/-- A five-token sentence containing both example keywords. -/
def sentWith : String :=
  "sheet naming rules apply here"

/-- A five-token sentence containing neither example keyword. -/
def sentWithout : String :=
  "these rules apply around here"

/-- A four-token sentence containing the keyword once. -/
def sentShort : String :=
  "put the sheet here"

/-- A 52-token sentence repeating the keyword twice: long enough that
the length discount outweighs the extra hit. -/
def sentLong : String :=
  "sheet " ++ String.join (List.replicate 25 "file data ") ++ "sheet"

/-! ## Lemmas about the stable sort -/

theorem insBefore_perm {α : Type} (le : α → α → Bool) (x : α) (l : List α) :
    (insBefore le x l).Perm (x :: l) := by
  induction l with
  | nil => rfl
  | cons y ys ih =>
    by_cases h : le y x
    · simp only [insBefore, h, if_true]
      exact (ih.cons y).trans (List.Perm.swap x y ys)
    · simp [insBefore, h]

theorem stableSort_perm_aux {α : Type} (le : α → α → Bool) (l acc : List α) :
    (l.foldl (fun a x => insBefore le x a) acc).Perm (acc ++ l) := by
  induction l generalizing acc with
  | nil => simp
  | cons x xs ih =>
    refine (ih (insBefore le x acc)).trans ?_
    refine (List.Perm.append_right xs ((insBefore_perm le x acc))).trans ?_
    simpa using List.perm_middle.symm

theorem stableSort_perm {α : Type} (le : α → α → Bool) (l : List α) :
    (stableSort le l).Perm l := by
  simpa using stableSort_perm_aux le l []

theorem insBefore_pairwise {α : Type} (le : α → α → Bool)
    (htot : ∀ a b, le a b = true ∨ le b a = true)
    (htrans : ∀ a b c, le a b = true → le b c = true → le a c = true)
    (x : α) (l : List α) (hl : l.Pairwise (fun a b => le a b = true)) :
    (insBefore le x l).Pairwise (fun a b => le a b = true) := by
  induction l with
  | nil => simp [insBefore]
  | cons y ys ih =>
    rw [List.pairwise_cons] at hl
    obtain ⟨hy, hys⟩ := hl
    by_cases h : le y x
    · simp only [insBefore, h, if_true]
      rw [List.pairwise_cons]
      refine ⟨?_, ih hys⟩
      intro z hz
      rcases List.mem_cons.mp (((insBefore_perm le x ys).mem_iff).mp hz) with rfl | hz'
      · exact h
      · exact hy z hz'
    · simp only [insBefore, h, if_false, Bool.false_eq_true]
      have hxy : le x y = true := by
        rcases htot y x with h' | h'
        · exact absurd h' h
        · exact h'
      rw [List.pairwise_cons]
      constructor
      · intro z hz
        rcases List.mem_cons.mp hz with rfl | hz'
        · exact hxy
        · exact htrans x y z hxy (hy z hz')
      · exact List.pairwise_cons.mpr ⟨hy, hys⟩

theorem stableSort_pairwise_aux {α : Type} (le : α → α → Bool)
    (htot : ∀ a b, le a b = true ∨ le b a = true)
    (htrans : ∀ a b c, le a b = true → le b c = true → le a c = true)
    (l acc : List α) (hacc : acc.Pairwise (fun a b => le a b = true)) :
    (l.foldl (fun a x => insBefore le x a) acc).Pairwise (fun a b => le a b = true) := by
  induction l generalizing acc with
  | nil => exact hacc
  | cons x xs ih => exact ih _ (insBefore_pairwise le htot htrans x acc hacc)

theorem stableSort_pairwise {α : Type} (le : α → α → Bool)
    (htot : ∀ a b, le a b = true ∨ le b a = true)
    (htrans : ∀ a b c, le a b = true → le b c = true → le a c = true)
    (l : List α) :
    (stableSort le l).Pairwise (fun a b => le a b = true) :=
  stableSort_pairwise_aux le htot htrans l [] (List.Pairwise.nil)

theorem insBefore_filter {α : Type} (le : α → α → Bool) (P : α → Bool)
    (htot : ∀ a b, le a b = true ∨ le b a = true)
    (hcut : ∀ x y z, P x = true → le y x = false → le y z = true → P z = false)
    (x : α) (l : List α) (hl : l.Pairwise (fun a b => le a b = true)) :
    (insBefore le x l).filter P = l.filter P ++ (if P x then [x] else []) := by
  induction l with
  | nil => cases hx : P x <;> simp [insBefore, hx]
  | cons y ys ih =>
    rw [List.pairwise_cons] at hl
    obtain ⟨hy, hys⟩ := hl
    by_cases h : le y x
    · simp only [insBefore, h, if_true, List.filter_cons]
      by_cases hPy : P y
      · simp only [hPy, if_true, ih hys, List.cons_append]
      · simp only [hPy, Bool.false_eq_true, if_false, ih hys]
    · have hle : le y x = false := by simpa using h
      simp only [insBefore, hle, Bool.false_eq_true, if_false]
      by_cases hx : P x
      · have hnil : (y :: ys).filter P = [] := by
          rw [List.filter_eq_nil_iff]
          intro z hz
          rcases List.mem_cons.mp hz with rfl | hz'
          · have hzz : le z z = true := by rcases htot z z with h' | h' <;> exact h'
            simp [hcut x z z hx hle hzz]
          · simp [hcut x y z hx hle (hy z hz')]
        simp [List.filter_cons_of_pos hx, hnil, hx]
      · simp [List.filter_cons_of_neg hx, hx]

theorem stableSort_filter_aux {α : Type} (le : α → α → Bool) (P : α → Bool)
    (htot : ∀ a b, le a b = true ∨ le b a = true)
    (htrans : ∀ a b c, le a b = true → le b c = true → le a c = true)
    (hcut : ∀ x y z, P x = true → le y x = false → le y z = true → P z = false)
    (l acc : List α) (hacc : acc.Pairwise (fun a b => le a b = true)) :
    (l.foldl (fun a x => insBefore le x a) acc).filter P =
      acc.filter P ++ l.filter P := by
  induction l generalizing acc with
  | nil => simp
  | cons x xs ih =>
    have step := ih (insBefore le x acc) (insBefore_pairwise le htot htrans x acc hacc)
    calc ((x :: xs).foldl (fun a y => insBefore le y a) acc).filter P
        = (insBefore le x acc).filter P ++ xs.filter P := step
      _ = (acc.filter P ++ (if P x then [x] else [])) ++ xs.filter P := by
          rw [insBefore_filter le P htot hcut x acc hacc]
      _ = acc.filter P ++ (x :: xs).filter P := by
          by_cases hx : P x <;> simp [hx, List.filter_cons]

theorem stableSort_filter {α : Type} (le : α → α → Bool) (P : α → Bool)
    (htot : ∀ a b, le a b = true ∨ le b a = true)
    (htrans : ∀ a b c, le a b = true → le b c = true → le a c = true)
    (hcut : ∀ x y z, P x = true → le y x = false → le y z = true → P z = false)
    (l : List α) :
    (stableSort le l).filter P = l.filter P := by
  simpa using stableSort_filter_aux le P htot htrans hcut l [] (List.Pairwise.nil)

/-! ## Lemmas about the seen dict of `retrieve` -/

theorem candLe_total (a b : Cand) : candLe a b = true ∨ candLe b a = true := by
  simp only [candLe, decide_eq_true_eq]
  exact le_total a.distance b.distance

theorem candLe_trans (a b c : Cand) :
    candLe a b = true → candLe b c = true → candLe a c = true := by
  simp only [candLe, decide_eq_true_eq]
  exact le_trans

theorem lookupK_updSeen (k k₀ : DKey) (c : Cand) (seen : List (DKey × Cand)) :
    lookupK k (updSeen k₀ c seen) =
      if k₀ = k then
        some (match lookupK k₀ seen with
          | none => c
          | some old => if c.distance < old.distance then c else old)
      else lookupK k seen := by
  induction seen with
  | nil => by_cases h : k₀ = k <;> simp [updSeen, lookupK, h]
  | cons p rest ih =>
    obtain ⟨k', c'⟩ := p
    by_cases h1 : k' = k₀
    · subst h1
      by_cases h2 : k' = k
      · subst h2
        by_cases hd : c.distance < c'.distance <;>
          simp [updSeen, lookupK, hd]
      · by_cases hd : c.distance < c'.distance <;>
          simp [updSeen, lookupK, h2, hd]
    · by_cases h2 : k' = k
      · subst h2
        have h3 : ¬ k₀ = k' := fun h => h1 h.symm
        simp [updSeen, lookupK, h1, h3]
      · simp [updSeen, lookupK, h1, h2, ih]

theorem lookupK_stepNeighbor (T : ℚ) (k : DKey) (seen : List (DKey × Cand))
    (e : String × Option String × ℚ) :
    lookupK k (stepNeighbor T seen e) = bestStep T k (lookupK k seen) e := by
  by_cases hT : e.2.2 ≤ T
  · simp only [stepNeighbor, hT, if_true]
    rw [lookupK_updSeen]
    by_cases hk : dkeyOf e = k
    · simp only [hk, if_true, bestStep, hT, true_and]
      cases h : lookupK k seen with
      | none => simp [candOf]
      | some old => by_cases hd : e.2.2 < old.distance <;> simp [candOf, hd]
    · simp [hk, bestStep, hT]
  · simp [stepNeighbor, hT, bestStep]

theorem lookupK_foldl_step (T : ℚ) (k : DKey)
    (es : List (String × Option String × ℚ)) (seen : List (DKey × Cand)) :
    lookupK k (es.foldl (stepNeighbor T) seen) = bestFor T k es (lookupK k seen) := by
  induction es generalizing seen with
  | nil => rfl
  | cons e es ih =>
    rw [List.foldl_cons, ih, lookupK_stepNeighbor]
    rfl

theorem retrieveSeen_flat (search : String → SearchRes) (T : ℚ) (qs : List String) :
    retrieveSeen search T qs = (streamAll search qs).foldl (stepNeighbor T) [] := by
  have haux : ∀ (qs : List String) (seen : List (DKey × Cand)),
      qs.foldl (fun s q => (zipRes (search q)).foldl (stepNeighbor T) s) seen =
        (streamAll search qs).foldl (stepNeighbor T) seen := by
    intro qs
    induction qs with
    | nil => intro seen; rfl
    | cons q qs ih =>
      intro seen
      rw [List.foldl_cons, ih]
      simp only [streamAll, List.flatMap_cons, List.foldl_append]
  exact haux qs []

theorem bestFor_spec (T : ℚ) (k : DKey) (es : List (String × Option String × ℚ)) :
    (bestFor T k es none = none → ∀ e ∈ es, e.2.2 ≤ T → dkeyOf e ≠ k) ∧
    (∀ c, bestFor T k es none = some c →
      dkeyCand c = k ∧ (∃ e ∈ es, e.2.2 ≤ T ∧ candOf e = c) ∧
      ∀ e ∈ es, e.2.2 ≤ T → dkeyOf e = k → c.distance ≤ e.2.2) := by
  induction es using List.reverseRecOn with
  | nil => simp [bestFor]
  | append_singleton es e ih =>
    have hsnoc : bestFor T k (es ++ [e]) none = bestStep T k (bestFor T k es none) e := by
      rw [bestFor, List.foldl_append]
      rfl
    by_cases hcond : e.2.2 ≤ T ∧ dkeyOf e = k
    · cases hprev : bestFor T k es none with
      | none =>
        have hval : bestFor T k (es ++ [e]) none = some (candOf e) := by
          rw [hsnoc, hprev]
          simp [bestStep, hcond.1, hcond.2]
        constructor
        · intro h0
          rw [hval] at h0
          cases h0
        · intro c hc
          rw [hval] at hc
          obtain rfl : candOf e = c := Option.some.inj hc
          refine ⟨hcond.2, ⟨e, by simp, hcond.1, rfl⟩, ?_⟩
          intro e' he' hT' hk'
          rcases List.mem_append.mp he' with he'' | he''
          · exact absurd hk' ((ih.1 hprev) e' he'' hT')
          · have : e' = e := by simpa using he''
            subst this
            exact le_rfl
      | some cOld =>
        obtain ⟨hkOld, hexOld, hminOld⟩ := ih.2 cOld hprev
        by_cases hd : e.2.2 < cOld.distance
        · have hval : bestFor T k (es ++ [e]) none = some (candOf e) := by
            rw [hsnoc, hprev]
            simp [bestStep, hcond.1, hcond.2, hd]
          constructor
          · intro h0; rw [hval] at h0; cases h0
          · intro c hc
            rw [hval] at hc
            obtain rfl : candOf e = c := Option.some.inj hc
            refine ⟨hcond.2, ⟨e, by simp, hcond.1, rfl⟩, ?_⟩
            intro e' he' hT' hk'
            rcases List.mem_append.mp he' with he'' | he''
            · have h1 := hminOld e' he'' hT' hk'
              have h2 : (candOf e).distance = e.2.2 := rfl
              rw [h2]
              exact le_trans (le_of_lt hd) h1
            · have : e' = e := by simpa using he''
              subst this
              exact le_rfl
        · have hval : bestFor T k (es ++ [e]) none = some cOld := by
            rw [hsnoc, hprev]
            simp [bestStep, hcond.1, hcond.2, hd]
          constructor
          · intro h0; rw [hval] at h0; cases h0
          · intro c hc
            rw [hval] at hc
            obtain rfl : cOld = c := Option.some.inj hc
            obtain ⟨e₀, he₀, hT₀, hc₀⟩ := hexOld
            refine ⟨hkOld, ⟨e₀, List.mem_append.mpr (Or.inl he₀), hT₀, hc₀⟩, ?_⟩
            intro e' he' hT' hk'
            rcases List.mem_append.mp he' with he'' | he''
            · exact hminOld e' he'' hT' hk'
            · have : e' = e := by simpa using he''
              subst this
              exact le_of_not_lt hd
    · have hval : bestFor T k (es ++ [e]) none = bestFor T k es none := by
        rw [hsnoc, bestStep.eq_def, if_neg hcond]
      constructor
      · intro h0 e' he' hT'
        rcases List.mem_append.mp he' with he'' | he''
        · exact ih.1 (hval ▸ h0) e' he'' hT'
        · have : e' = e := by simpa using he''
          subst this
          intro hk'
          exact hcond ⟨hT', hk'⟩
      · intro c hc
        obtain ⟨hk1, ⟨e₀, he₀, hT₀, hc₀⟩, hmin⟩ := ih.2 c (hval ▸ hc)
        refine ⟨hk1, ⟨e₀, List.mem_append.mpr (Or.inl he₀), hT₀, hc₀⟩, ?_⟩
        intro e' he' hT' hk'
        rcases List.mem_append.mp he' with he'' | he''
        · exact hmin e' he'' hT' hk'
        · have : e' = e := by simpa using he''
          subst this
          exact absurd ⟨hT', hk'⟩ hcond

theorem mem_keys_updSeen (k k₀ : DKey) (c : Cand) (seen : List (DKey × Cand)) (x : DKey) :
    x ∈ (updSeen k₀ c seen).map Prod.fst ↔ x ∈ seen.map Prod.fst ∨ x = k₀ := by
  induction seen with
  | nil => simp [updSeen]
  | cons p rest ih =>
    obtain ⟨k', c'⟩ := p
    by_cases h1 : k' = k₀
    · subst h1
      by_cases hd : c.distance < c'.distance <;>
        constructor <;> intro h <;>
          simp only [updSeen, if_pos rfl, hd, if_true, if_false, List.map_cons,
            List.mem_cons] at * <;> tauto
    · simp only [updSeen, if_neg h1, List.map_cons, List.mem_cons, ih]
      tauto

theorem keys_nodup_updSeen (k₀ : DKey) (c : Cand) (seen : List (DKey × Cand))
    (h : (seen.map Prod.fst).Nodup) : ((updSeen k₀ c seen).map Prod.fst).Nodup := by
  induction seen with
  | nil => simp [updSeen]
  | cons p rest ih =>
    obtain ⟨k', c'⟩ := p
    rw [List.map_cons, List.nodup_cons] at h
    obtain ⟨hk', hrest⟩ := h
    by_cases h1 : k' = k₀
    · subst h1
      by_cases hd : c.distance < c'.distance <;>
        · simp only [updSeen, if_pos rfl, hd, if_true, if_false, List.map_cons,
            List.nodup_cons]
          exact ⟨hk', hrest⟩
    · have h2 : k' ∉ ((updSeen k₀ c rest).map Prod.fst) := by
        rw [mem_keys_updSeen k₀ k₀ c rest k']
        rintro (hmem | rfl)
        · exact hk' hmem
        · exact h1 rfl
      simp only [updSeen, if_neg h1, List.map_cons, List.nodup_cons]
      exact ⟨h2, ih hrest⟩

theorem keys_nodup_foldl (T : ℚ) (es : List (String × Option String × ℚ))
    (seen : List (DKey × Cand)) (h : (seen.map Prod.fst).Nodup) :
    ((es.foldl (stepNeighbor T) seen).map Prod.fst).Nodup := by
  induction es generalizing seen with
  | nil => exact h
  | cons e es ih =>
    rw [List.foldl_cons]
    apply ih
    by_cases hT : e.2.2 ≤ T
    · simp only [stepNeighbor, hT, if_true]
      exact keys_nodup_updSeen _ _ _ h
    · simpa [stepNeighbor, hT] using h

theorem lookupK_some_mem (k : DKey) (c : Cand) (seen : List (DKey × Cand))
    (h : lookupK k seen = some c) : (k, c) ∈ seen := by
  induction seen with
  | nil => cases h
  | cons p rest ih =>
    obtain ⟨k', c'⟩ := p
    by_cases h1 : k' = k
    · subst h1
      rw [lookupK, if_pos rfl] at h
      obtain rfl : c' = c := Option.some.inj h
      exact List.mem_cons_self _ _
    · rw [lookupK, if_neg h1] at h
      exact List.mem_cons_of_mem _ (ih h)

theorem mem_lookupK (k : DKey) (c : Cand) (seen : List (DKey × Cand))
    (hnd : (seen.map Prod.fst).Nodup) (h : (k, c) ∈ seen) : lookupK k seen = some c := by
  induction seen with
  | nil => cases h
  | cons p rest ih =>
    obtain ⟨k', c'⟩ := p
    rw [List.map_cons, List.nodup_cons] at hnd
    obtain ⟨hk', hrest⟩ := hnd
    rcases List.mem_cons.mp h with heq | hmem
    · rw [Prod.mk.injEq] at heq
      obtain ⟨rfl, rfl⟩ := heq
      rw [lookupK, if_pos rfl]
    · by_cases h1 : k' = k
      · subst h1
        exact absurd (List.mem_map.mpr ⟨(k', c), hmem, rfl⟩) hk'
      · rw [lookupK, if_neg h1]
        exact ih hrest hmem

/-- Everything the bestFor machinery yields about one stored entry of
the final seen dict. -/
theorem retrieveSeen_entry (search : String → SearchRes) (T : ℚ) (qs : List String)
    (k : DKey) (c : Cand) (h : (k, c) ∈ retrieveSeen search T qs) :
    dkeyCand c = k ∧
    (∃ e ∈ streamAll search qs, e.2.2 ≤ T ∧ candOf e = c) ∧
    ∀ e ∈ streamAll search qs, e.2.2 ≤ T → dkeyOf e = k → c.distance ≤ e.2.2 := by
  have hnd : ((retrieveSeen search T qs).map Prod.fst).Nodup := by
    rw [retrieveSeen_flat]
    exact keys_nodup_foldl T _ [] (by simp)
  have hl : lookupK k (retrieveSeen search T qs) = some c := mem_lookupK k c _ hnd h
  rw [retrieveSeen_flat, lookupK_foldl_step] at hl
  exact (bestFor_spec T k (streamAll search qs)).2 c hl

/-! ## Claim C1 — dedup invariant of the candidate set -/

/-- C1: for every sequence of expanded queries, the candidate set
produced by `retrieve` never contains two entries with the same dedup
key (page, first 80 characters of text); each kept entry is one of the
thresholded neighbors, and on key collisions the kept entry has the
lowest distance among all thresholded neighbors with that key. -/
theorem retrieve_dedup_ok (search : String → SearchRes) (T : ℚ) (qs : List String) :
    RetrieveDedupOK search T qs := by
  have hnd : ((retrieveSeen search T qs).map Prod.fst).Nodup := by
    rw [retrieveSeen_flat]
    exact keys_nodup_foldl T _ [] (by simp)
  have hkeys : (retrievePre search T qs).map dkeyCand =
      (retrieveSeen search T qs).map Prod.fst := by
    rw [retrievePre, List.map_map]
    apply List.map_congr_left
    intro p hp
    exact (retrieveSeen_entry search T qs p.1 p.2 hp).1
  constructor
  · have hperm : ((retrieve search T qs).map dkeyCand).Perm
        ((retrievePre search T qs).map dkeyCand) :=
      (stableSort_perm candLe (retrievePre search T qs)).map dkeyCand
    exact hperm.symm.nodup (hkeys ▸ hnd)
  · intro c hc
    have hc' : c ∈ retrievePre search T qs :=
      ((stableSort_perm candLe (retrievePre search T qs)).mem_iff).mp hc
    obtain ⟨p, hp, hpc⟩ := List.mem_map.mp hc'
    obtain ⟨hkey, hex, hmin⟩ := retrieveSeen_entry search T qs p.1 p.2 hp
    subst hpc
    refine ⟨hex, ?_⟩
    intro e he hT hk
    exact hmin e he hT (by rw [hk, hkey])

/-- Witness for C1 at a concrete collection returning two neighbors with
the same dedup key at distances 0.30 and 0.20. -/
theorem retrieve_dedup_ok_witness :
    RetrieveDedupOK twoHitSearch (35 / 100) ["q"] :=
  retrieve_dedup_ok twoHitSearch (35 / 100) ["q"]

/-! ## Claim C2 — threshold behaviour of `retrieve` -/

theorem retrieve_threshold_ok (search : String → SearchRes) (T : ℚ) (qs : List String) :
    RetrieveThresholdOK search T qs := by
  constructor
  · intro c hc
    have hc' : c ∈ retrievePre search T qs :=
      ((stableSort_perm candLe (retrievePre search T qs)).mem_iff).mp hc
    obtain ⟨p, hp, hpc⟩ := List.mem_map.mp hc'
    obtain ⟨hkey, hex, hmin⟩ := retrieveSeen_entry search T qs p.1 p.2 hp
    subst hpc
    obtain ⟨e, he, hT, hce⟩ := hex
    calc p.2.distance = e.2.2 := by rw [← hce]; rfl
      _ ≤ T := hT
  · intro e he hT
    cases hb : bestFor T (dkeyOf e) (streamAll search qs) none with
    | none =>
      exact absurd rfl (((bestFor_spec T (dkeyOf e) (streamAll search qs)).1 hb) e he hT)
    | some c =>
      obtain ⟨hkey, -, -⟩ := (bestFor_spec T (dkeyOf e) (streamAll search qs)).2 c hb
      have hl : lookupK (dkeyOf e) (retrieveSeen search T qs) = some c := by
        rw [retrieveSeen_flat, lookupK_foldl_step]
        exact hb
      have hmem : (dkeyOf e, c) ∈ retrieveSeen search T qs := lookupK_some_mem _ _ _ hl
      have hcpre : c ∈ retrievePre search T qs :=
        List.mem_map.mpr ⟨(dkeyOf e, c), hmem, rfl⟩
      exact ⟨c, ((stableSort_perm candLe (retrievePre search T qs)).mem_iff).mpr hcpre, hkey⟩

/-- C2 counterexample: the claim as stated asserts that a candidate at
distance 0.50 is included when T = 0.48.  On the code the filter is
`d <= THRESH` with 0.50 > 0.48, so the only returned neighbor is
dropped and the merged output is empty. -/
theorem retrieve_threshold_counterexample :
    retrieve distHalfSearch (48 / 100) ["q"] = [] := by
  norm_num [retrieve, retrievePre, retrieveSeen, distHalfSearch, zipRes, stepNeighbor,
    updSeen, stableSort, insBefore]

/-- C2 (amended): for every query, a returned neighbor is kept as a
candidate exactly when its distance is at most T (boundary inclusive):
no merged candidate exceeds T, every neighbor with distance at most T is
represented in the merged output under its dedup key, and a candidate at
distance 0.50 is excluded when T = 0.35, excluded when T = 0.48, and
included when T = 0.50. -/
theorem retrieve_threshold_claim :
    (∀ (search : String → SearchRes) (T : ℚ) (qs : List String),
      RetrieveThresholdOK search T qs) ∧
    retrieve distHalfSearch (35 / 100) ["q"] = [] ∧
    retrieve distHalfSearch (48 / 100) ["q"] = [] ∧
    retrieve distHalfSearch (1 / 2) ["q"] = [⟨"sample passage", some "12", 1 / 2⟩] := by
  refine ⟨retrieve_threshold_ok, ?_, ?_, ?_⟩
  · norm_num [retrieve, retrievePre, retrieveSeen, distHalfSearch, zipRes, stepNeighbor,
      updSeen, stableSort, insBefore]
  · norm_num [retrieve, retrievePre, retrieveSeen, distHalfSearch, zipRes, stepNeighbor,
      updSeen, stableSort, insBefore]
  · simp [retrieve, retrievePre, retrieveSeen, distHalfSearch, zipRes, stepNeighbor,
      updSeen, stableSort, insBefore, dkeyOf, candOf, take80]

/-! ## Claim C3 — ranking of the merged output -/

/-- C3: for every input, the candidate list returned by `retrieve` is
sorted in non-decreasing order of distance, and candidates with equal
distance appear in first-inserted order (the sort is stable: within each
distance class the sorted output agrees with the insertion order of the
candidate set). -/
theorem retrieve_sorted_ok (search : String → SearchRes) (T : ℚ) (qs : List String) :
    RetrieveSortedOK search T qs := by
  constructor
  · have hp := stableSort_pairwise candLe candLe_total candLe_trans (retrievePre search T qs)
    exact hp.imp (fun {a b} hab => by simpa [candLe, decide_eq_true_eq] using hab)
  · intro d
    refine stableSort_filter candLe (fun c => decide (c.distance = d))
      candLe_total candLe_trans ?_ (retrievePre search T qs)
    intro x y z hx hyx hyz
    simp only [candLe, decide_eq_true_eq, decide_eq_false_iff_not] at hx hyx hyz ⊢
    have h1 : x.distance < y.distance := not_le.mp hyx
    intro hz
    rw [hx] at h1
    rw [hz] at hyz
    exact absurd hyz (not_le.mpr h1)

/-- Witness for C3 at a concrete collection. -/
theorem retrieve_sorted_ok_witness :
    RetrieveSortedOK twoHitSearch (35 / 100) ["q"] :=
  retrieve_sorted_ok twoHitSearch (35 / 100) ["q"]

/-! ## Claim C4 — query expansion -/

theorem pydedupAux_sublist {α : Type} [DecidableEq α] (l seen : List α) :
    (pydedupAux seen l).Sublist l := by
  induction l generalizing seen with
  | nil => simp [pydedupAux]
  | cons x xs ih =>
    by_cases hx : x ∈ seen
    · simpa [pydedupAux, hx] using (ih seen).trans (List.sublist_cons_self x xs)
    · simpa [pydedupAux, hx] using (ih (x :: seen)).cons₂ x

theorem pydedupAux_nodup {α : Type} [DecidableEq α] (l seen : List α) :
    (pydedupAux seen l).Nodup ∧ ∀ x ∈ pydedupAux seen l, x ∉ seen := by
  induction l generalizing seen with
  | nil => simp [pydedupAux]
  | cons x xs ih =>
    by_cases hx : x ∈ seen
    · simpa [pydedupAux, hx] using ih seen
    · obtain ⟨hnd, hdisj⟩ := ih (x :: seen)
      simp only [pydedupAux, hx, if_false, Bool.false_eq_true]
      constructor
      · rw [List.nodup_cons]
        refine ⟨fun hmem => ?_, hnd⟩
        exact (hdisj x hmem) (List.mem_cons_self x seen)
      · intro y hy
        rcases List.mem_cons.mp hy with rfl | hy'
        · exact hx
        · exact fun hseen => (hdisj y hy') (List.mem_cons_of_mem x hseen)

theorem pydedup_cons {α : Type} [DecidableEq α] (x : α) (xs : List α) :
    pydedup (x :: xs) = x :: pydedupAux [x] xs := by
  simp [pydedup, pydedupAux]

/-- C4: for every non-empty question and every glossary, `expand_query`
returns 1 to 4 strings whose first entry is the unmodified question,
with no exact-string duplicates, as an order-preserving selection (first
occurrences) from the collected rewrite list; with an empty glossary the
output is exactly the singleton question. -/
theorem expand_query_ok (gloss : List (String × List String)) (q : String)
    (_hq : q ≠ "") : ExpandOK gloss q := by
  have hshape : expand_query gloss q =
      q :: (pydedupAux [q] (expandTail gloss q)).take 3 := by
    rw [expand_query, expandRaw, pydedup_cons]
    rfl
  have hnd : (pydedup (expandRaw gloss q)).Nodup := by
    rw [expandRaw, pydedup_cons, List.nodup_cons]
    obtain ⟨hnd', hdisj⟩ := pydedupAux_nodup (expandTail gloss q) [q]
    exact ⟨fun hmem => (hdisj q hmem) (List.mem_cons_self q []), hnd'⟩
  refine ⟨?_, ?_, ?_, ?_, ?_, ?_⟩
  · rw [hshape]; rfl
  · rw [hshape]; simp
  · rw [expand_query, List.length_take]
    exact min_le_left _ _
  · rw [expand_query]
    exact (List.take_sublist 4 _).nodup hnd
  · rw [expand_query]
    exact (List.take_sublist 4 _).trans (pydedupAux_sublist (expandRaw gloss q) [])
  · rintro rfl
    simp [expand_query, expandRaw, expandTail, pydedup, pydedupAux]

/-- Witness for C4 at the glossary example of the specification. -/
theorem expand_query_ok_witness :
    "how do we name shts" ≠ "" ∧ ExpandOK [("sheet", ["shts"])] "how do we name shts" :=
  ⟨by decide, expand_query_ok [("sheet", ["shts"])] "how do we name shts" (by decide)⟩

/-! ## Claim C5 — extractive sentence scoring -/

theorem score_eq_formula (sent : String) (keys : List String) :
    score_sentence sent keys = scoreFormula sent keys := by
  by_cases h : sent = ""
  · subst h
    rw [score_sentence, if_pos rfl, scoreFormula]
    rw [show tokenize "" = [] from rfl]
    simp
  · rw [score_sentence, if_neg h, scoreFormula]

theorem keywordHitsQ_empty (keys : List String) : keywordHitsQ keys "" = 0 := by
  rw [keywordHitsQ, show tokenize "" = [] from rfl]
  simp

theorem score_keyword_mono : ScoreKeywordMono := by
  intro s₁ s₂ keys _hlen hpos hzero
  have h2 : score_sentence s₂ keys = 0 := by
    by_cases h : s₂ = ""
    · rw [score_sentence, if_pos h]
    · rw [score_eq_formula, scoreFormula]
      have hz : (keys.map (fun k => (((tokenize s₂).count k : ℕ) : ℚ))).sum = 0 := hzero
      rw [hz, zero_div]
  have h1 : 0 < score_sentence s₁ keys := by
    have hne : s₁ ≠ "" := by
      rintro rfl
      rw [keywordHitsQ_empty] at hpos
      exact absurd hpos (lt_irrefl 0)
    rw [score_sentence, if_neg hne]
    apply div_pos
    · exact hpos
    · positivity
  rw [h2]
  exact h1

/-- C5: the extractive score equals the specified formula (keyword
frequency over the sentence tokens divided by `1 + token_count/40`);
consequently, with the example keyword set, a sentence containing the
keywords outscores an equal-length sentence containing none, and a long
sentence repeating one keyword scores lower than a short sentence
containing it once. -/
theorem score_sentence_ok :
    (∀ (sent : String) (keys : List String),
      score_sentence sent keys = scoreFormula sent keys) ∧
    ScoreKeywordMono ∧
    score_sentence sentWithout kwSheetNaming < score_sentence sentWith kwSheetNaming ∧
    score_sentence sentLong kwSheetNaming < score_sentence sentShort kwSheetNaming := by
  have hk : kwSheetNaming = ["sheet", "naming"] := rfl
  have hWith : score_sentence sentWith kwSheetNaming = 16 / 9 := by
    rw [score_eq_formula, scoreFormula, hk]
    simp only [List.map_cons, List.map_nil, List.sum_cons, List.sum_nil]
    rw [show (tokenize sentWith).count "sheet" = 1 from rfl,
      show (tokenize sentWith).count "naming" = 1 from rfl,
      show (tokenize sentWith).length = 5 from rfl]
    norm_num
  have hWithout : score_sentence sentWithout kwSheetNaming = 0 := by
    rw [score_eq_formula, scoreFormula, hk]
    simp only [List.map_cons, List.map_nil, List.sum_cons, List.sum_nil]
    rw [show (tokenize sentWithout).count "sheet" = 0 from rfl,
      show (tokenize sentWithout).count "naming" = 0 from rfl]
    norm_num
  have hLong : score_sentence sentLong kwSheetNaming = 20 / 23 := by
    rw [score_eq_formula, scoreFormula, hk]
    simp only [List.map_cons, List.map_nil, List.sum_cons, List.sum_nil]
    rw [show (tokenize sentLong).count "sheet" = 2 from rfl,
      show (tokenize sentLong).count "naming" = 0 from rfl,
      show (tokenize sentLong).length = 52 from rfl]
    norm_num
  have hShort : score_sentence sentShort kwSheetNaming = 10 / 11 := by
    rw [score_eq_formula, scoreFormula, hk]
    simp only [List.map_cons, List.map_nil, List.sum_cons, List.sum_nil]
    rw [show (tokenize sentShort).count "sheet" = 1 from rfl,
      show (tokenize sentShort).count "naming" = 0 from rfl,
      show (tokenize sentShort).length = 4 from rfl]
    norm_num
  refine ⟨score_eq_formula, score_keyword_mono, ?_, ?_⟩
  · rw [hWith, hWithout]; norm_num
  · rw [hLong, hShort]; norm_num

/-- Witness for the keyword-monotonicity part of C5 at the example
sentences. -/
theorem score_sentence_ok_witness :
    (tokenize sentWith).length = (tokenize sentWithout).length ∧
    0 < keywordHitsQ kwSheetNaming sentWith ∧
    keywordHitsQ kwSheetNaming sentWithout = 0 ∧
    score_sentence sentWithout kwSheetNaming < score_sentence sentWith kwSheetNaming := by
  have hpos : 0 < keywordHitsQ kwSheetNaming sentWith := by
    rw [keywordHitsQ, show kwSheetNaming = ["sheet", "naming"] from rfl]
    simp only [List.map_cons, List.map_nil, List.sum_cons, List.sum_nil]
    rw [show (tokenize sentWith).count "sheet" = 1 from rfl,
      show (tokenize sentWith).count "naming" = 1 from rfl]
    norm_num
  have hzero : keywordHitsQ kwSheetNaming sentWithout = 0 := by
    rw [keywordHitsQ, show kwSheetNaming = ["sheet", "naming"] from rfl]
    simp only [List.map_cons, List.map_nil, List.sum_cons, List.sum_nil]
    rw [show (tokenize sentWithout).count "sheet" = 0 from rfl,
      show (tokenize sentWithout).count "naming" = 0 from rfl]
    norm_num
  exact ⟨rfl, hpos, hzero,
    score_sentence_ok.2.1 sentWith sentWithout kwSheetNaming rfl hpos hzero⟩

/-! ## Claim C6 — the extractive answer block -/

theorem scoredGe_total (a b : Scored) : scoredGe a b = true ∨ scoredGe b a = true := by
  simp only [scoredGe, decide_eq_true_eq]
  exact le_total b.1 a.1

theorem scoredGe_trans (a b c : Scored) :
    scoredGe a b = true → scoredGe b c = true → scoredGe a c = true := by
  simp only [scoredGe, decide_eq_true_eq]
  intro h1 h2
  exact le_trans h2 h1

theorem intLe_total (a b : ℤ) : intLe a b = true ∨ intLe b a = true := by
  simp only [intLe, decide_eq_true_eq]
  exact le_total a b

theorem intLe_trans (a b c : ℤ) :
    intLe a b = true → intLe b c = true → intLe a c = true := by
  simp only [intLe, decide_eq_true_eq]
  exact le_trans

theorem pydedupAux_mem {α : Type} [DecidableEq α] (l seen : List α) (x : α) :
    x ∈ pydedupAux seen l ↔ x ∈ l ∧ x ∉ seen := by
  induction l generalizing seen with
  | nil => simp [pydedupAux]
  | cons y xs ih =>
    by_cases hy : y ∈ seen
    · rw [pydedupAux, if_pos hy, ih]
      constructor
      · rintro ⟨hx, hs⟩
        exact ⟨List.mem_cons_of_mem y hx, hs⟩
      · rintro ⟨hx, hs⟩
        rcases List.mem_cons.mp hx with rfl | hx'
        · exact absurd hy hs
        · exact ⟨hx', hs⟩
    · rw [pydedupAux, if_neg hy]
      constructor
      · intro hmem
        rcases List.mem_cons.mp hmem with rfl | hmem'
        · exact ⟨List.mem_cons_self x xs, hy⟩
        · obtain ⟨hx, hs⟩ := (ih (y :: seen)).mp hmem'
          exact ⟨List.mem_cons_of_mem y hx,
            fun hseen => hs (List.mem_cons_of_mem y hseen)⟩
      · rintro ⟨hx, hs⟩
        rcases List.mem_cons.mp hx with rfl | hx'
        · exact List.mem_cons_self x _
        · by_cases hxy : x = y
          · subst hxy
            exact List.mem_cons_self x _
          · refine List.mem_cons_of_mem y ((ih (y :: seen)).mpr ⟨hx', ?_⟩)
            intro hmem
            rcases List.mem_cons.mp hmem with h1 | h2
            · exact hxy h1
            · exact hs h2

theorem pydedup_mem {α : Type} [DecidableEq α] (l : List α) (x : α) :
    x ∈ pydedup l ↔ x ∈ l := by
  simpa using pydedupAux_mem l [] x

theorem sortedUnique_sorted (l : List ℤ) : (sortedUnique l).Pairwise (fun a b => a < b) := by
  have hle := stableSort_pairwise intLe intLe_total intLe_trans (pydedup l)
  have hnd : (sortedUnique l).Nodup :=
    ((stableSort_perm intLe (pydedup l)).symm.nodup (pydedupAux_nodup l []).1)
  have := hle.and hnd
  exact this.imp (fun {a b} hab => by
    obtain ⟨h1, h2⟩ := hab
    rw [intLe, decide_eq_true_eq] at h1
    exact lt_of_le_of_ne h1 h2)

theorem sortedUnique_mem (l : List ℤ) (z : ℤ) : z ∈ sortedUnique l ↔ z ∈ l := by
  rw [sortedUnique, (stableSort_perm intLe (pydedup l)).mem_iff, pydedup_mem]

theorem scoredCands_mem_pos (query : String) (docs : List String)
    (metas : List (Option String)) (dists : List ℚ) :
    ∀ t ∈ scoredCands query docs metas dists, 0 < t.1 := by
  intro t ht
  rw [scoredCands, List.mem_flatMap] at ht
  obtain ⟨r, _, hrow⟩ := ht
  rw [scoredRow, List.mem_filterMap] at hrow
  obtain ⟨s, _, hsome⟩ := hrow
  by_cases hpos : 0 < score_sentence s (pykeywords query)
  · rw [if_pos hpos] at hsome
    obtain rfl := Option.some.inj hsome
    exact hpos
  · rw [if_neg hpos] at hsome
    cases hsome

/-- C6: the extractive synthesizer selects at most 3 strictly positive
scored sentences in descending score order across all candidates, shows
exactly the selected sentences, cites exactly the distinct
integer-parsable pages of the selection sorted strictly ascending
(unparsable page markers are dropped from citations while the sentence
is still shown), falls back when no sentence scores above zero, and
always exposes the raw passages. -/
theorem extract_block_ok (query : String) (docs : List String)
    (metas : List (Option String)) (dists : List ℚ) :
    ExtractOK query docs metas dists := by
  have hsel : (extractBlock query docs metas dists).selected =
      (stableSort scoredGe (scoredCands query docs metas dists)).take 3 := rfl
  have hpair := stableSort_pairwise scoredGe scoredGe_total scoredGe_trans
    (scoredCands query docs metas dists)
  have hperm := stableSort_perm scoredGe (scoredCands query docs metas dists)
  refine ⟨?_, ?_, ?_, ?_, rfl, ?_, ?_, ?_, rfl⟩
  · rw [hsel, List.length_take]
    exact min_le_left _ _
  · intro t ht
    rw [hsel] at ht
    have hmem : t ∈ scoredCands query docs metas dists :=
      hperm.mem_iff.mp ((List.take_sublist 3 _).subset ht)
    exact ⟨scoredCands_mem_pos query docs metas dists t hmem, hmem⟩
  · rw [hsel]
    exact (List.Pairwise.sublist (List.take_sublist 3 _) hpair).imp
      (fun {a b} hab => by rwa [scoredGe, decide_eq_true_eq] at hab)
  · intro u hu hnotsel t ht
    rw [hsel] at hnotsel ht
    have husort : u ∈ stableSort scoredGe (scoredCands query docs metas dists) :=
      hperm.mem_iff.mpr hu
    rw [← List.take_append_drop 3 (stableSort scoredGe (scoredCands query docs metas dists))]
      at husort hpair
    rcases List.mem_append.mp husort with h1 | h2
    · exact absurd h1 hnotsel
    · have := (List.pairwise_append.mp hpair).2.2 t ht u h2
      rwa [scoredGe, decide_eq_true_eq] at this
  · exact sortedUnique_sorted _
  · intro z
    have hc : (extractBlock query docs metas dists).cited =
        sortedUnique (((stableSort scoredGe (scoredCands query docs metas dists)).take 3).filterMap
          (fun t => if t.2.2 ≠ "?" then pyInt t.2.2 else none)) := rfl
    rw [hc, sortedUnique_mem, List.mem_filterMap, hsel]
    constructor
    · rintro ⟨t, ht, hsome⟩
      by_cases hq : t.2.2 ≠ "?"
      · rw [if_pos hq] at hsome
        exact ⟨t, ht, hsome⟩
      · rw [if_neg hq] at hsome
        cases hsome
    · rintro ⟨t, ht, hsome⟩
      refine ⟨t, ht, ?_⟩
      have hq : t.2.2 ≠ "?" := by
        intro h
        rw [h] at hsome
        rw [show pyInt "?" = none from rfl] at hsome
        cases hsome
      rw [if_pos hq]
      exact hsome
  · intro hall
    have hnil : scoredCands query docs metas dists = [] := by
      rw [scoredCands, List.flatMap_eq_nil_iff]
      intro r hr
      rw [scoredRow, List.filterMap_eq_nil_iff]
      intro s hs
      rw [if_neg (not_lt.mpr (hall r hr s hs))]
    have hsort : stableSort scoredGe (scoredCands query docs metas dists) = [] := by
      rw [hnil]
      rfl
    constructor
    · show ((stableSort scoredGe (scoredCands query docs metas dists)).take 3).isEmpty = true
      rw [hsort]
      rfl
    · rw [hsel, hsort]
      rfl

/-- Witness for C6 at a concrete query over two pages. -/
theorem extract_block_ok_witness :
    ExtractOK "sheet naming"
      ["Sheets use sheet naming rules. Other text is here.", "short text"]
      [some "12", none] [(1 : ℚ) / 10, 2 / 10] :=
  extract_block_ok "sheet naming"
    ["Sheets use sheet naming rules. Other text is here.", "short text"]
    [some "12", none] [(1 : ℚ) / 10, 2 / 10]

/-! ## Claim C7 — sentence segmentation

The split of `_sentences` checks the length bound on the raw piece and
strips afterwards, while the specification filters on the trimmed
length.  The two agree because every piece the split produces is already
trimmed: the text fed to the split is stripped, the separator consumes
the whole whitespace run, and each non-final piece ends in the
sentence-terminal punctuation character matched by the lookbehind. -/

theorem isTerm_not_isWs (c : Char) (h : isTerm c = true) : isWs c = false := by
  simp only [isTerm, Bool.or_eq_true, beq_iff_eq] at h
  rcases h with (rfl | rfl) | rfl <;> rfl

theorem head_dropWhile_not (p : Char → Bool) (l : List Char) (c : Char)
    (h : (l.dropWhile p).head? = some c) : p c = false := by
  induction l with
  | nil => cases h
  | cons a l ih =>
    rw [List.dropWhile_cons] at h
    by_cases hp : p a
    · rw [if_pos hp] at h
      exact ih h
    · rw [if_neg hp] at h
      obtain rfl : a = c := Option.some.inj h
      simpa using hp

theorem dropWhile_eq_self_of_head (p : Char → Bool) (l : List Char)
    (h : ∀ c, l.head? = some c → p c = false) : l.dropWhile p = l := by
  cases l with
  | nil => rfl
  | cons a l =>
    rw [List.dropWhile_cons, if_neg]
    simp [h a rfl]

theorem stripChars_eq_self (l : List Char)
    (h1 : ∀ c, l.head? = some c → isWs c = false)
    (h2 : ∀ c, l.getLast? = some c → isWs c = false) :
    stripChars l = l := by
  rw [stripChars, dropWhile_eq_self_of_head isWs l h1,
    dropWhile_eq_self_of_head isWs l.reverse
      (fun c hc => h2 c (by rwa [List.head?_reverse] at hc)),
    List.reverse_reverse]

theorem stripChars_head (l : List Char) (c : Char)
    (h : (stripChars l).head? = some c) : isWs c = false := by
  rw [stripChars, List.head?_reverse] at h
  obtain ⟨pre, hpre⟩ := List.dropWhile_suffix (l := (l.dropWhile isWs).reverse) isWs
  have hZ : ((l.dropWhile isWs).reverse).getLast? = some c := by
    rw [← hpre, List.getLast?_append, h]
    rfl
  rw [List.getLast?_reverse] at hZ
  exact head_dropWhile_not isWs l c hZ

theorem stripChars_last (l : List Char) (c : Char)
    (h : (stripChars l).getLast? = some c) : isWs c = false := by
  rw [stripChars, List.getLast?_reverse] at h
  exact head_dropWhile_not isWs _ c h

theorem getLast?_cons_of_ne_nil {α : Type} (a : α) (l : List α) (h : l ≠ []) :
    (a :: l).getLast? = l.getLast? := by
  cases l with
  | nil => exact absurd rfl h
  | cons b t => exact List.getLast?_cons_cons

/-- Every piece the splitter emits is already trimmed, given the run
invariants: `acc` holds the current piece reversed and starts with a
non-whitespace character; in skip mode `acc` is empty; the remaining
input ends in a non-whitespace character; and once the input is
exhausted the current piece also ends in a non-whitespace character. -/
theorem splitAux_strip (cs : List Char) : ∀ (skip : Bool) (acc : List Char),
    (skip = true → acc = []) →
    (skip = false → acc = [] → ∀ c, cs.head? = some c → isWs c = false) →
    (∀ c, acc.getLast? = some c → isWs c = false) →
    (cs ≠ [] → ∀ c, cs.getLast? = some c → isWs c = false) →
    (cs = [] → acc = [] ∨ ∀ c, acc.head? = some c → isWs c = false) →
    ∀ p ∈ splitAux skip acc cs, stripChars p = p := by
  induction cs with
  | nil =>
    intro skip acc _ _ haccL _ hend p hp
    have hp' : p = acc.reverse := by
      rcases skip <;> simpa [splitAux] using hp
    subst hp'
    rcases hend rfl with rfl | haccH
    · rfl
    · apply stripChars_eq_self
      · intro c hc
        rw [List.head?_reverse] at hc
        exact haccL c hc
      · intro c hc
        rw [List.getLast?_reverse] at hc
        exact haccH c hc
  | cons c cs ih =>
    intro skip acc hskip hstart haccL hlast _hend p hp
    have hlast' : cs ≠ [] → ∀ c', cs.getLast? = some c' → isWs c' = false := by
      intro hne c' hc'
      refine hlast (by simp) c' ?_
      rw [getLast?_cons_of_ne_nil c cs hne]
      exact hc'
    have hsingle : cs = [] → isWs c = false := by
      rintro rfl
      exact hlast (by simp) c rfl
    cases skip with
    | true =>
      obtain rfl : acc = [] := hskip rfl
      by_cases hc : isWs c
      · have hp' : p ∈ splitAux true [] cs := by simpa [splitAux, hc] using hp
        refine ih true [] (fun _ => rfl) (fun h => by cases h)
          (fun c' hc' => by cases hc') hlast' (fun _ => Or.inl rfl) p hp'
      · have hp' : p ∈ splitAux false [c] cs := by simpa [splitAux, hc] using hp
        have hcns : isWs c = false := by simpa using hc
        refine ih false [c] (fun h => by cases h) (fun _ h => by cases h)
          (fun c' hc' => ?_) hlast' (fun _ => Or.inr (fun c' hc' => ?_)) p hp'
        · obtain rfl : c = c' := by simpa using hc'
          exact hcns
        · obtain rfl : c = c' := by simpa using hc'
          exact hcns
    | false =>
      by_cases hcond : isWs c && headIsTerm acc
      · have hp' : p ∈ acc.reverse :: splitAux true [] cs := by
          simpa [splitAux, hcond] using hp
        obtain ⟨hws, hterm⟩ := (Bool.and_eq_true _ _).mp hcond
        rcases List.mem_cons.mp hp' with rfl | hp''
        · apply stripChars_eq_self
          · intro c' hc'
            rw [List.head?_reverse] at hc'
            exact haccL c' hc'
          · intro c' hc'
            rw [List.getLast?_reverse] at hc'
            cases acc with
            | nil => cases hterm
            | cons a rest =>
              obtain rfl : a = c' := Option.some.inj hc'
              exact isTerm_not_isWs a (by simpa [headIsTerm] using hterm)
        · refine ih true [] (fun _ => rfl) (fun h => by cases h)
            (fun c' hc' => by cases hc') hlast' (fun _ => Or.inl rfl) p hp''
      · have hp' : p ∈ splitAux false (c :: acc) cs := by
          simpa [splitAux, hcond] using hp
        refine ih false (c :: acc) (fun h => by cases h) (fun _ h => by cases h)
          (fun c' hc' => ?_) hlast' (fun hnil => Or.inr (fun c' hc' => ?_)) p hp'
        · cases acc with
          | nil =>
            obtain rfl : c = c' := by simpa using hc'
            exact hstart rfl rfl c rfl
          | cons a rest =>
            rw [getLast?_cons_of_ne_nil c (a :: rest) (by simp)] at hc'
            exact haccL c' hc'
        · obtain rfl : c = c' := by simpa using hc'
          exact hsingle hnil

theorem splitSents_strip (text : String) :
    ∀ p ∈ splitSents (preChars text), stripChars p = p := by
  refine splitAux_strip (preChars text) false [] (fun h => by cases h)
    (fun _ _ c hc => stripChars_head _ c hc) (fun c hc => by cases hc)
    (fun _ c hc => stripChars_last _ c hc) (fun _ => Or.inl rfl)

theorem filter_strip_comm (L : List (List Char)) (h : ∀ p ∈ L, stripChars p = p) :
    ((L.filter lenOK).map (fun p => ((⟨stripChars p⟩ : String)))) =
      ((L.map stripChars).filter lenOK).map (fun p => ((⟨p⟩ : String))) := by
  induction L with
  | nil => rfl
  | cons p L ih =>
    have hp := h p (List.mem_cons_self p L)
    have ih' := ih (fun q hq => h q (List.mem_cons_of_mem p hq))
    simp only [List.map_cons, hp, List.filter_cons]
    by_cases hlen : lenOK p
    · simp only [hlen, if_true, List.map_cons, hp, ih']
    · simp only [hlen, Bool.false_eq_true, if_false, ih']

/-- C7: `_sentences` splits on sentence-terminal punctuation followed by
whitespace and keeps exactly the sentences whose trimmed length lies in
[6, 300] — the code filters on the raw piece length before stripping,
but every emitted piece is already trimmed, so the two coincide. -/
theorem sentences_ok (text : String) : pySentences text = specSentences text := by
  rw [pySentences, specSentences]
  exact filter_strip_comm (splitSents (preChars text)) (splitSents_strip text)

/-! ## Claim C8 — the NotFound outcome -/

/-- C8: when retrieval completes with zero candidates after
thresholding, the submit handler renders the fixed not-found warning and
never invokes the generative collaborator; this outcome is produced
without any collaborator call, so it is distinct from a collaborator
error. -/
theorem submit_notfound_ok (search : String → SearchRes) (T : ℚ) (qs : List String)
    (q : String) (llm : String → List Cand → String)
    (h : retrieve search T qs = []) :
    submitHandler q llm (retrieve search T qs) =
      ⟨AppDisplay.warnNotFound, 0⟩ := by
  rw [h]
  rfl

/-- Witness for C8: a query whose only neighbor lies beyond the
threshold yields the not-found display with zero collaborator calls. -/
theorem submit_notfound_ok_witness :
    retrieve distHalfSearch (35 / 100) ["q"] = [] ∧
    submitHandler "q" (fun _ _ => "some answer") (retrieve distHalfSearch (35 / 100) ["q"]) =
      ⟨AppDisplay.warnNotFound, 0⟩ := by
  have h : retrieve distHalfSearch (35 / 100) ["q"] = [] := by
    norm_num [retrieve, retrievePre, retrieveSeen, distHalfSearch, zipRes, stepNeighbor,
      updSeen, stableSort, insBefore]
  exact ⟨h, submit_notfound_ok distHalfSearch (35 / 100) ["q"] "q"
    (fun _ _ => "some answer") h⟩

/-! ## Claim C9 — uniqueness of chunk ids -/

theorem digitChar_inj (a b : ℕ) (ha : a < 10) (hb : b < 10)
    (h : digitChar a = digitChar b) : a = b := by
  interval_cases a <;> interval_cases b <;> revert h <;> decide

theorem natStr_lt_ten (n : ℕ) (h : n < 10) : natStr n = [digitChar n] := by
  rw [natStr]
  exact dif_pos h

theorem natStr_ge_ten (n : ℕ) (h : ¬ n < 10) :
    natStr n = natStr (n / 10) ++ [digitChar (n % 10)] := by
  rw [natStr]
  exact dif_neg h

theorem natStr_ne_nil (n : ℕ) : natStr n ≠ [] := by
  by_cases h : n < 10
  · rw [natStr_lt_ten n h]
    simp
  · rw [natStr_ge_ten n h]
    simp

theorem natStr_inj (m : ℕ) : ∀ n, natStr m = natStr n → m = n := by
  induction m using Nat.strong_induction_on with
  | _ m ih =>
    intro n h
    by_cases hm : m < 10 <;> by_cases hn : n < 10
    · rw [natStr_lt_ten m hm, natStr_lt_ten n hn] at h
      injection h with h1 _
      exact digitChar_inj m n hm hn h1
    · rw [natStr_lt_ten m hm, natStr_ge_ten n hn] at h
      have hlen := congrArg List.length h
      simp only [List.length_append, List.length_singleton, List.length_cons,
        List.length_nil] at hlen
      have h0 : natStr (n / 10) = [] := List.length_eq_zero.mp (by omega)
      exact absurd h0 (natStr_ne_nil _)
    · rw [natStr_ge_ten m hm, natStr_lt_ten n hn] at h
      have hlen := congrArg List.length h
      simp only [List.length_append, List.length_singleton, List.length_cons,
        List.length_nil] at hlen
      have h0 : natStr (m / 10) = [] := List.length_eq_zero.mp (by omega)
      exact absurd h0 (natStr_ne_nil _)
    · rw [natStr_ge_ten m hm, natStr_ge_ten n hn] at h
      obtain ⟨h1, h2⟩ := List.append_inj' h rfl
      injection h2 with h2' _
      have hd : m % 10 = n % 10 :=
        digitChar_inj _ _ (Nat.mod_lt m (by norm_num)) (Nat.mod_lt n (by norm_num)) h2'
      have hq : m / 10 = n / 10 :=
        ih (m / 10) (Nat.div_lt_self (by omega) (by norm_num)) (n / 10) h1
      omega

theorem candSuffix_inj (cid : List Char) (k₁ k₂ : ℕ)
    (h : candSuffix cid k₁ = candSuffix cid k₂) : k₁ = k₂ := by
  rw [candSuffix, candSuffix] at h
  have h1 := List.append_cancel_left h
  injection h1 with _ h2
  exact natStr_inj k₁ k₂ h2

theorem findFreeAux_not_mem (seen : List (List Char)) (cid : List Char) :
    ∀ (fuel k : ℕ), (∃ j, j < fuel ∧ candSuffix cid (k + j) ∉ seen) →
      findFreeAux seen cid fuel k ∉ seen := by
  intro fuel
  induction fuel with
  | zero =>
    rintro k ⟨j, hj, -⟩
    exact absurd hj (Nat.not_lt_zero j)
  | succ fuel ih =>
    rintro k ⟨j, hj, hfree⟩
    by_cases hmem : candSuffix cid k ∈ seen
    · rw [findFreeAux, if_pos hmem]
      apply ih (k + 1)
      cases j with
      | zero => exact absurd (by simpa using hmem) (by simpa using hfree)
      | succ j =>
        refine ⟨j, by omega, ?_⟩
        rwa [show k + 1 + j = k + (j + 1) from by omega]
    · rw [findFreeAux, if_neg hmem]
      exact hmem

theorem exists_free_suffix (seen : List (List Char)) (cid : List Char) :
    ∃ j, j < seen.length + 1 ∧ candSuffix cid (1 + j) ∉ seen := by
  by_contra hall
  push_neg at hall
  have hLnd : ((List.range (seen.length + 1)).map
      (fun j => candSuffix cid (1 + j))).Nodup := by
    refine List.Nodup.map ?_ (List.nodup_range _)
    intro j₁ j₂ hj
    have := candSuffix_inj cid (1 + j₁) (1 + j₂) hj
    omega
  have hsub : ((List.range (seen.length + 1)).map
      (fun j => candSuffix cid (1 + j))) ⊆ seen := by
    intro x hx
    obtain ⟨j, hj, rfl⟩ := List.mem_map.mp hx
    exact hall j (List.mem_range.mp hj)
  have hcard : ((List.range (seen.length + 1)).map
      (fun j => candSuffix cid (1 + j))).length ≤ seen.length := by
    calc ((List.range (seen.length + 1)).map (fun j => candSuffix cid (1 + j))).length
        = ((List.range (seen.length + 1)).map
            (fun j => candSuffix cid (1 + j))).toFinset.card :=
          (List.toFinset_card_of_nodup hLnd).symm
      _ ≤ seen.toFinset.card := Finset.card_le_card (fun x hx =>
          List.mem_toFinset.mpr (hsub (List.mem_toFinset.mp hx)))
      _ ≤ seen.length := List.toFinset_card_le seen
  rw [List.length_map, List.length_range] at hcard
  omega

theorem freshId_not_mem (seen : List (List Char)) (cid : List Char) :
    freshId seen cid ∉ seen := by
  rw [freshId]
  by_cases hmem : cid ∈ seen
  · rw [if_pos hmem]
    exact findFreeAux_not_mem seen cid (seen.length + 1) 1 (exists_free_suffix seen cid)
  · rw [if_neg hmem]
    exact hmem

/-- C9: within one ingestion run the ids assigned to the chunks are
pairwise distinct, for every input document and every hash function:
each base id combines page number, running index and content hash, and
an id already taken receives the first free numeric suffix. -/
theorem build_ids_nodup (h : ℕ → List Char → List Char)
    (chunks : List (ℕ × List Char)) : (buildIds h chunks).Nodup := by
  suffices haux : ∀ (l : List (ℕ × (ℕ × List Char))) (ids : List (List Char)),
      ids.Nodup →
      (l.foldl (fun ids ich =>
        ids ++ [freshId ids (mkBaseId h ich.2.1 ich.1 ich.2.2)]) ids).Nodup by
    exact haux chunks.enum [] (by simp)
  intro l
  induction l with
  | nil => exact fun ids hids => hids
  | cons x l ih =>
    intro ids hids
    rw [List.foldl_cons]
    apply ih
    refine List.nodup_append.mpr ⟨hids, List.nodup_singleton _, ?_⟩
    intro a ha hb
    rw [List.mem_singleton] at hb
    subst hb
    exact freshId_not_mem ids _ ha

/-! ## Claim C10 — the no-API retrieval path -/

theorem rows_flatMap_dist_eq (g : String → Option String → List Scored) :
    ∀ (docs : List String) (metas : List (Option String)) (d₁ d₂ : List ℚ),
      d₁.length = d₂.length →
      (rowsOf docs metas d₁).flatMap (fun r => g r.1 r.2.1) =
        (rowsOf docs metas d₂).flatMap (fun r => g r.1 r.2.1) := by
  intro docs
  induction docs with
  | nil => intro _ _ _ _; rfl
  | cons t docs ih =>
    intro metas d₁ d₂ hlen
    cases metas with
    | nil => rfl
    | cons m metas =>
      cases d₁ with
      | nil =>
        cases d₂ with
        | nil => rfl
        | cons x₂ d₂ => simp at hlen
      | cons x₁ d₁ =>
        cases d₂ with
        | nil => simp at hlen
        | cons x₂ d₂ =>
          have hrec := ih metas d₁ d₂ (by simpa using hlen)
          simp only [rowsOf] at hrec
          simp only [rowsOf, List.zip_cons_cons, List.flatMap_cons, hrec]

theorem extract_dist_free (query : String) (docs : List String)
    (metas : List (Option String)) : ExtractDistFree query docs metas := by
  intro d₁ d₂ hlen
  have hcands : scoredCands query docs metas d₁ = scoredCands query docs metas d₂ :=
    rows_flatMap_dist_eq (fun txt meta => scoredRow (pykeywords query) txt meta)
      docs metas d₁ d₂ hlen
  have hsel : ∀ d : List ℚ, (extractBlock query docs metas d).selected =
      (stableSort scoredGe (scoredCands query docs metas d)).take 3 := fun _ => rfl
  have htop : ∀ d : List ℚ, (extractBlock query docs metas d).topSents =
      (extractBlock query docs metas d).selected.map (fun t => t.2.1) := fun _ => rfl
  have hcit : ∀ d : List ℚ, (extractBlock query docs metas d).cited =
      sortedUnique ((extractBlock query docs metas d).selected.filterMap
        (fun t => if t.2.2 ≠ "?" then pyInt t.2.2 else none)) := fun _ => rfl
  have hfall : ∀ d : List ℚ, (extractBlock query docs metas d).fallback =
      (extractBlock query docs metas d).selected.isEmpty := fun _ => rfl
  have hs : (extractBlock query docs metas d₁).selected =
      (extractBlock query docs metas d₂).selected := by
    rw [hsel, hsel, hcands]
  refine ⟨hs, ?_, ?_, ?_⟩
  · rw [htop, htop, hs]
  · rw [hcit, hcit, hs]
  · rw [hfall, hfall, hs]

theorem noapi_single_search (search : String → ℕ → SearchRes) (query : String) :
    NoapiOK search query := by
  refine ⟨?_, ?_, ?_⟩
  · by_cases hres : (search query 5).1.isEmpty <;> simp [noapiHandler, hres]
  · intro hne
    have hres : (search query 5).1.isEmpty = false := by
      simpa [List.isEmpty_iff] using hne
    simp [noapiHandler, hres]
  · intro B hB
    by_cases hres : (search query 5).1.isEmpty
    · simp [noapiHandler, hres] at hB
    · simp only [noapiHandler, hres, Bool.false_eq_true, if_false] at hB
      obtain rfl : extractBlock query (search query 5).1 (search query 5).2.1
          (search query 5).2.2 = B := Option.some.inj hB
      rfl

/-- C10: on the no-API extractive path exactly one nearest-neighbor
search is issued per question, with the unexpanded question and result
width K = 5; every returned neighbor becomes a candidate passage, and no
distance threshold exists anywhere: the extractive answer depends only
on how many distances come back (which bounds the zip), never on their
values. -/
theorem noapi_path_ok :
    (∀ (search : String → ℕ → SearchRes) (query : String), NoapiOK search query) ∧
    (∀ (query : String) (docs : List String) (metas : List (Option String)),
      ExtractDistFree query docs metas) :=
  ⟨noapi_single_search, extract_dist_free⟩

/-- Witness for C10 at a concrete index whose only neighbor is far away
(distance 0.9): it is still exposed as a passage. -/
theorem noapi_path_ok_witness :
    NoapiOK (fun _ _ => (["passage text"], [some "3"], [(9 : ℚ) / 10])) "line weights" :=
  noapi_path_ok.1 (fun _ _ => (["passage text"], [some "3"], [(9 : ℚ) / 10])) "line weights"

end CadBot
